import Mathlib

/-!
Verification of the farm coordinator (src/farm/farm.go) of the roshi
repository: a shallow embedding of its pure tuple algebra, write
scatter/gather, Select entry point, walker driver step, and constructor,
together with theorems settling the specification claims.

Conventions of the embedding:
* Go strings are `String` (keys, members) or `List Char` (error messages,
  where infix containment is reasoned about).
* Go `float64` scores are an arbitrary linear order `α` (the code only
  compares scores with `>`); witnesses instantiate `α := Int`.
* Go `int` is `Int`.
* A Go `map[T]struct\x7b\x7d` set is a `Finset T`.
* A fallible Go call returning `error` is `Option (List Char)`: `none` is
  a nil error (success), `some msg` an error with message `msg`.
-/

namespace Roshi

/-- common.KeyScoreMember: the (key, score, member) tuple. -/
structure KeyScoreMember (α : Type) where
  Key : String
  Score : α
  Member : String
deriving DecidableEq, Repr

/-- keyMember: the (key, member) projection (farm.go, type keyMember). -/
structure keyMember where
  Key : String
  Member : String
deriving DecidableEq, Repr

variable {α : Type} [LinearOrder α]

/-- The keyMember projection built at farm.go line 256:
`km := keyMember\x7bKey: tuple.Key, Member: tuple.Member\x7d`. -/
def kmOf (t : KeyScoreMember α) : keyMember :=
  { Key := t.Key, Member := t.Member }

/-- The set of tuples appearing in any input set: the domain both loops of
`unionDifference` (farm.go lines 253-262) iterate over. -/
def allTuples (tupleSets : List (Finset (KeyScoreMember α))) : Finset (KeyScoreMember α) :=
  tupleSets.foldr (fun s acc => s ∪ acc) ∅

/-- `counts[tuple]` after the loop of farm.go lines 253-262: each input set
is iterated once and contains a tuple at most once, so the count of a tuple
is the number of input sets containing it (line 261: `counts[tuple]++`). -/
def counts (tupleSets : List (Finset (KeyScoreMember α))) (t : KeyScoreMember α) : Nat :=
  tupleSets.countP (fun s => t ∈ s)

/-- The union built by farm.go lines 253-272: for every key-member observed,
`scores[km]` records the highest observed score (lines 256-259, strict `>`
update) and lines 266-271 emit the tuple (km.Key, scores[km], km.Member).
That emitted tuple is exactly the observed tuple whose score is maximal
among observed tuples sharing its key-member, so the union is the set of
score-maximal observed tuples. -/
def unionSet (tupleSets : List (Finset (KeyScoreMember α))) : Finset (KeyScoreMember α) :=
  (allTuples tupleSets).filter fun t =>
    ∀ u ∈ allTuples tupleSets, kmOf u = kmOf t → u.Score ≤ t.Score

/-- The difference built by farm.go lines 273-280: the key-member projection
of every full (key, score, member) tuple whose count is strictly below
`expectedCount = len(tupleSets)` (line 250). Note the count is per full
tuple, score included, not per key-member. -/
def differenceSet (tupleSets : List (Finset (KeyScoreMember α))) : Finset keyMember :=
  ((allTuples tupleSets).filter fun t => counts tupleSets t < tupleSets.length).image kmOf

/-- unionDifference (farm.go lines 249-282). -/
def unionDifference (tupleSets : List (Finset (KeyScoreMember α))) :
    Finset (KeyScoreMember α) × Finset keyMember :=
  (unionSet tupleSets, differenceSet tupleSets)

lemma mem_allTuples {tupleSets : List (Finset (KeyScoreMember α))} {t : KeyScoreMember α} :
    t ∈ allTuples tupleSets ↔ ∃ s ∈ tupleSets, t ∈ s := by
  induction tupleSets with
  | nil => simp [allTuples]
  | cons s rest ih =>
    simp [allTuples] at ih ⊢
    rw [ih]

omit [LinearOrder α] in
lemma kmOf_eq_iff {u t : KeyScoreMember α} :
    kmOf u = kmOf t ↔ u.Key = t.Key ∧ u.Member = t.Member := by
  constructor
  · intro h
    exact ⟨congrArg keyMember.Key h, congrArg keyMember.Member h⟩
  · intro ⟨h1, h2⟩
    simp [kmOf, h1, h2]

lemma counts_lt_iff {tupleSets : List (Finset (KeyScoreMember α))} {t : KeyScoreMember α} :
    counts tupleSets t < tupleSets.length ↔ ∃ s ∈ tupleSets, t ∉ s := by
  unfold counts
  rw [Nat.lt_iff_le_and_ne]
  constructor
  · intro ⟨_, hne⟩
    by_contra hall
    push_neg at hall
    exact hne (List.countP_eq_length.mpr (fun s hs => by simpa using hall s hs))
  · intro ⟨s, hs, hns⟩
    refine ⟨List.countP_le_length _, fun heq => hns ?_⟩
    simpa using List.countP_eq_length.mp heq s hs

/-- C1 counterexample: with two input sets both holding key-member
("k", "m") but at different scores, the diff nevertheless contains
("k", "m"): `counts` is keyed by the full tuple including the score
(farm.go line 261), so score disagreement alone seeds the diff. -/
theorem diff_contains_km_present_in_all_inputs :
    (KeyScoreMember.mk "k" (1 : Int) "m") ∈ ({KeyScoreMember.mk "k" (1 : Int) "m"} : Finset (KeyScoreMember Int)) ∧
    (KeyScoreMember.mk "k" (2 : Int) "m") ∈ ({KeyScoreMember.mk "k" (2 : Int) "m"} : Finset (KeyScoreMember Int)) ∧
    keyMember.mk "k" "m" ∈
      (unionDifference [({KeyScoreMember.mk "k" (1 : Int) "m"} : Finset (KeyScoreMember Int)),
        ({KeyScoreMember.mk "k" (2 : Int) "m"} : Finset (KeyScoreMember Int))]).2 := by
  decide

/-- C1 (amended): the diff returned by unionDifference contains exactly the
key-member projections of the full (key, score, member) triples that are
present in fewer than N of the input sets. A key-member recorded with the
same score in all N inputs does not enter the diff, but a key-member
present in all N inputs under differing scores does: presence is counted
per full triple, score included, not per key-member. -/
theorem differenceSet_spec (S : List (Finset (KeyScoreMember α))) (km : keyMember) :
    km ∈ (unionDifference S).2 ↔
      ∃ t : KeyScoreMember α, (∃ s ∈ S, t ∈ s) ∧ kmOf t = km ∧ ∃ s ∈ S, t ∉ s := by
  unfold unionDifference differenceSet
  simp only [Finset.mem_image, Finset.mem_filter, mem_allTuples, counts_lt_iff]
  constructor
  · rintro ⟨t, ⟨hin, hout⟩, hkm⟩
    exact ⟨t, hin, hkm, hout⟩
  · rintro ⟨t, hin, hkm, hout⟩
    exact ⟨t, ⟨hin, hout⟩, hkm⟩

/-- C2: for every key-member appearing in at least one input set, the union
returned by unionDifference contains exactly one tuple with that
key-member; that tuple is itself one of the observed tuples and its score
is the maximum score recorded for that key-member across all inputs —
and conversely, a unique such maximal tuple exists only for key-members
that appear in some input. -/
theorem unionSet_spec (S : List (Finset (KeyScoreMember α))) (km : keyMember) :
    (∃ s ∈ S, ∃ u ∈ s, kmOf u = km) ↔
      ∃! t : KeyScoreMember α,
        t ∈ (unionDifference S).1 ∧ kmOf t = km ∧ (∃ s ∈ S, t ∈ s) ∧
          ∀ u : KeyScoreMember α, (∃ s ∈ S, u ∈ s) → kmOf u = km → u.Score ≤ t.Score := by
  constructor
  · rintro ⟨s, hs, u, hu, hkm⟩
    have hne : ((allTuples S).filter fun t => kmOf t = km).Nonempty := by
      exact ⟨u, Finset.mem_filter.mpr ⟨mem_allTuples.mpr ⟨s, hs, hu⟩, hkm⟩⟩
    obtain ⟨t, ht, hmax⟩ :=
      Finset.exists_max_image ((allTuples S).filter fun t => kmOf t = km)
        KeyScoreMember.Score hne
    obtain ⟨htAll, htkm⟩ := Finset.mem_filter.mp ht
    have hbound : ∀ v : KeyScoreMember α, (∃ s ∈ S, v ∈ s) → kmOf v = km →
        v.Score ≤ t.Score := by
      intro v hv hvkm
      exact hmax v (Finset.mem_filter.mpr ⟨mem_allTuples.mpr hv, hvkm⟩)
    refine ⟨t, ⟨?_, htkm, mem_allTuples.mp htAll, hbound⟩, ?_⟩
    · refine Finset.mem_filter.mpr ⟨htAll, ?_⟩
      intro v hvAll hvkm
      exact hbound v (mem_allTuples.mp hvAll) (hvkm.trans htkm)
    · rintro t2 ⟨_, ht2km, ht2in, ht2bound⟩
      have hle : t2.Score ≤ t.Score := hbound t2 ht2in ht2km
      have hge : t.Score ≤ t2.Score := ht2bound t (mem_allTuples.mp htAll) htkm
      have hscore : t2.Score = t.Score := le_antisymm hle hge
      have hkm2 : kmOf t2 = kmOf t := ht2km.trans htkm.symm
      obtain ⟨hKey, hMember⟩ := kmOf_eq_iff.mp hkm2
      cases t; cases t2
      simp only [KeyScoreMember.mk.injEq]
      exact ⟨hKey, hscore, hMember⟩
  · rintro ⟨t, ⟨_, htkm, htin, _⟩, _⟩
    obtain ⟨s, hs, hts⟩ := htin
    exact ⟨s, hs, t, hts, htkm⟩

/-! ## Write coordinator (farm.go lines 198-243)

A cluster response is `Option (List Char)`: `none` models a nil error
(success), `some msg` an error. The gather loop consumes responses in the
order they arrive on the error channel; `responses` is that arrival order,
one entry per cluster, so `responses.length` plays the role of
`cap(errChan) = len(f.clusters)`. -/

/-- strings.Join(elems, "; ") as used at farm.go line 240, on
`List Char` strings. -/
def goJoin (sep : List Char) : List (List Char) → List Char
  | [] => []
  | [a] => a
  | a :: b :: rest => a ++ sep ++ goJoin sep (b :: rest)

/-- The quorum-failure message of farm.go line 240:
fmt.Errorf("no quorum (%s)", strings.Join(errors, "; ")). -/
def noQuorumMsg (errors : List (List Char)) : List Char :=
  String.toList "no quorum (" ++ goJoin (String.toList "; ") errors ++ String.toList ")"

/-- The gather loop of farm.go lines 224-235: consume responses in arrival
order, appending each non-nil error message to `errors` and bumping `got`;
break as soon as `haveQuorum() = (got - len(errors) >= need)` holds.
Returns the final `(got, errors)`. -/
def gather (need : Int) : List (Option (List Char)) → Int → List (List Char) →
    Int × List (List Char)
  | [], got, errors => (got, errors)
  | none :: rest, got, errors =>
    if got + 1 - (errors.length : Int) ≥ need then (got + 1, errors)
    else gather need rest (got + 1) errors
  | some msg :: rest, got, errors =>
    if got + 1 - ((errors ++ [msg]).length : Int) ≥ need then (got + 1, errors ++ [msg])
    else gather need rest (got + 1) (errors ++ [msg])

/-- One instrumentation event of the write path (writeInstrumentation,
farm.go lines 346-352); Insert and Delete differ only in which counters
these events feed. Duration values are wall-clock and not modelled. -/
inductive InstrEvent where
  | call
  | recordCount (n : Nat)
  | callDuration
  | recordDuration
  | quorumFailure
deriving DecidableEq, Repr

/-- Observable outcome of one write call: the returned error, the number of
cluster goroutines scattered (farm.go lines 216-221), and the
instrumentation events recorded. -/
structure WriteResult where
  err : Option (List Char)
  clusterCalls : Nat
  instr : List InstrEvent
deriving DecidableEq, Repr

/-- write (farm.go lines 198-243): short-circuit an empty batch (lines
203-206) before any instrumentation or scatter; otherwise instrument,
scatter to every cluster, gather until quorum or exhaustion, and report
`no quorum (...)` when `got - len(errors) >= need` fails at the end. -/
def write (clusters : Nat) (tuples : List (KeyScoreMember α)) (need : Int)
    (responses : List (Option (List Char))) : WriteResult :=
  if tuples.length ≤ 0 then
    { err := none, clusterCalls := 0, instr := [] }
  else
    let pre := [InstrEvent.call, InstrEvent.recordCount tuples.length]
    let g := gather need responses 0 []
    if g.1 - g.2.length ≥ need then
      { err := none, clusterCalls := clusters,
        instr := pre ++ [InstrEvent.callDuration, InstrEvent.recordDuration] }
    else
      { err := some (noQuorumMsg g.2), clusterCalls := clusters,
        instr := pre ++ [InstrEvent.quorumFailure, InstrEvent.callDuration,
          InstrEvent.recordDuration] }

/-- Farm.Insert (farm.go lines 95-101) delegates to write with the cluster
Insert action and insert-instrumentation. -/
def FarmInsert (clusters : Nat) (tuples : List (KeyScoreMember α)) (need : Int)
    (responses : List (Option (List Char))) : WriteResult :=
  write clusters tuples need responses

/-- Farm.Delete (farm.go lines 120-126) delegates to write with the cluster
Delete action and delete-instrumentation. -/
def FarmDelete (clusters : Nat) (tuples : List (KeyScoreMember α)) (need : Int)
    (responses : List (Option (List Char))) : WriteResult :=
  write clusters tuples need responses

/-- The number of successful (nil-error) responses in a list. -/
def successCount (responses : List (Option (List Char))) : Nat :=
  responses.countP (fun r => r.isNone)

lemma successCount_cons_none (rest : List (Option (List Char))) :
    successCount (none :: rest) = successCount rest + 1 := by
  simp [successCount, List.countP_cons]

lemma successCount_cons_some (msg : List Char) (rest : List (Option (List Char))) :
    successCount (some msg :: rest) = successCount rest := by
  simp [successCount, List.countP_cons]

lemma gather_quorum_iff (need : Int) (rs : List (Option (List Char))) (got : Int)
    (errors : List (List Char)) :
    ((gather need rs got errors).1 - ((gather need rs got errors).2).length ≥ need) ↔
      got - errors.length + successCount rs ≥ need := by
  induction rs generalizing got errors with
  | nil => simp [gather, successCount]
  | cons r rest ih =>
    have hc : (0 : Int) ≤ (successCount rest : Int) := Int.ofNat_nonneg _
    cases r with
    | none =>
      rw [gather, successCount_cons_none]
      split
      · rename_i hq
        dsimp only
        push_cast
        constructor
        · intro _
          omega
        · intro _
          exact hq
      · rename_i hq
        rw [ih]
        push_cast
        omega
    | some msg =>
      rw [gather, successCount_cons_some]
      split
      · rename_i hq
        dsimp only
        simp only [List.length_append, List.length_cons, List.length_nil] at hq ⊢
        push_cast at hq ⊢
        constructor
        · intro _
          omega
        · intro _
          omega
      · rename_i hq
        rw [ih]
        simp only [List.length_append, List.length_cons, List.length_nil]
        push_cast
        omega

lemma gather_no_quorum_errors (need : Int) (rs : List (Option (List Char))) (got : Int)
    (errors : List (List Char))
    (h : ¬ ((gather need rs got errors).1 - ((gather need rs got errors).2).length ≥ need)) :
    (gather need rs got errors).2 = errors ++ rs.filterMap id := by
  induction rs generalizing got errors with
  | nil => simp [gather]
  | cons r rest ih =>
    cases r with
    | none =>
      rw [gather] at h ⊢
      split at h
      · rename_i hq
        dsimp only at h
        exact absurd hq h
      · rename_i hq
        rw [if_neg hq]
        simpa using ih _ _ h
    | some msg =>
      rw [gather] at h ⊢
      split at h
      · rename_i hq
        dsimp only at h
        exact absurd hq h
      · rename_i hq
        rw [if_neg hq]
        rw [ih _ _ h]
        simp

lemma mem_goJoin_sub (sep : List Char) (e : List Char) (l : List (List Char))
    (h : e ∈ l) : e <:+: goJoin sep l := by
  induction l with
  | nil => cases h
  | cons a rest ih =>
    cases rest with
    | nil =>
      simp only [List.mem_singleton] at h
      subst h
      exact ⟨[], [], by simp [goJoin]⟩
    | cons b t =>
      rw [goJoin]
      rcases List.mem_cons.mp h with h1 | h2
      · subst h1
        exact ⟨[], sep ++ goJoin sep (b :: t), by simp⟩
      · obtain ⟨s, u, hsu⟩ := ih h2
        exact ⟨a ++ sep ++ s, u, by rw [← hsu]; simp⟩

lemma successCount_add_errors_length (l : List (Option (List Char))) :
    successCount l + (l.filterMap id).length = l.length := by
  induction l with
  | nil => simp [successCount]
  | cons r rest ih =>
    cases r with
    | none => simpa [successCount_cons_none, Nat.add_right_comm] using ih
    | some msg =>
      have h2 : ((some msg :: rest).filterMap id).length = (rest.filterMap id).length + 1 := by
        simp
      rw [successCount_cons_some, h2, List.length_cons]
      omega

lemma gather_run (need : Int) (rs : List (Option (List Char))) (got : Int)
    (errs : List (List Char)) (hbase : got - (errs.length : Int) < need) :
    ∃ c : Nat, c ≤ rs.length ∧
      (gather need rs got errs).1 = got + c ∧
      (gather need rs got errs).2 = errs ++ (rs.take c).filterMap id ∧
      (∀ j : Nat, j < c →
        got - (errs.length : Int) + successCount (rs.take j) < need) := by
  induction rs generalizing got errs with
  | nil =>
    exact ⟨0, by simp [gather]⟩
  | cons r rest ih =>
    cases r with
    | none =>
      rw [gather]
      split
      · refine ⟨1, by simp, by dsimp only; omega, by simp, ?_⟩
        intro j hj
        interval_cases j
        simpa [successCount] using hbase
      · rename_i hq
        push_neg at hq
        obtain ⟨c, hc, h1, h2, h3⟩ := ih (got + 1) errs hq
        refine ⟨c + 1, by simpa using hc, by omega, by simpa using h2, ?_⟩
        intro j hj
        match j with
        | 0 => simpa [successCount] using hbase
        | j + 1 =>
          have := h3 j (by omega)
          rw [List.take_succ_cons, successCount_cons_none]
          push_cast at this ⊢
          omega
    | some msg =>
      rw [gather]
      split
      · refine ⟨1, by simp, by dsimp only; omega, by simp, ?_⟩
        intro j hj
        interval_cases j
        simpa [successCount] using hbase
      · rename_i hq
        push_neg at hq
        simp only [List.length_append, List.length_cons, List.length_nil] at hq
        have hbase2 : got + 1 - ((errs ++ [msg]).length : Int) < need := by
          simp only [List.length_append, List.length_cons, List.length_nil]
          push_cast at hq ⊢
          omega
        obtain ⟨c, hc, h1, h2, h3⟩ := ih (got + 1) (errs ++ [msg]) hbase2
        refine ⟨c + 1, by simpa using hc, by omega, ?_, ?_⟩
        · rw [h2, List.take_succ_cons]
          simp
        · intro j hj
          match j with
          | 0 => simpa [successCount] using hbase
          | j + 1 =>
            have := h3 j (by omega)
            rw [List.take_succ_cons, successCount_cons_some]
            simp only [List.length_append, List.length_cons, List.length_nil] at this
            push_cast at this ⊢
            omega

omit [LinearOrder α] in
/-- C3: for a non-empty batch and a write quorum Q ≥ 1, write (and hence
Insert and Delete) succeeds exactly when the number of successful
per-cluster responses reaches Q; the gather loop returns the moment the
running success count does (it consumes a prefix of the arrival order in
which quorum holds only at the very end); it fails exactly when all
responses are in with fewer than Q successes, and then the error message
contains every collected per-cluster error message. -/
theorem write_quorum_spec (tuples : List (KeyScoreMember α)) (need : Int)
    (responses : List (Option (List Char)))
    (hne : tuples ≠ []) (hq : 1 ≤ need) :
    ((write responses.length tuples need responses).err = none ↔
      need ≤ (successCount responses : Int)) ∧
    ((write responses.length tuples need responses).err = none →
      ∃ c ≤ responses.length,
        need ≤ (successCount (responses.take c) : Int) ∧
        ∀ j : Nat, j < c → (successCount (responses.take j) : Int) < need) ∧
    (∀ msg, (write responses.length tuples need responses).err = some msg →
      ∀ e ∈ responses.filterMap id, e <:+: msg) := by
  have hlen : ¬ tuples.length ≤ 0 := by
    simpa [List.length_eq_zero] using hne
  have hbase : (0 : Int) - ((List.length ([] : List (List Char))) : Int) < need := by
    simpa using lt_of_lt_of_le Int.zero_lt_one hq
  refine ⟨?_, ?_, ?_⟩
  · unfold write
    rw [if_neg hlen]
    rcases Classical.em ((gather need responses 0 []).1 -
        ((gather need responses 0 []).2).length ≥ need) with hg | hg
    · rw [if_pos hg]
      simp only [true_iff]
      have := (gather_quorum_iff need responses 0 []).mp hg
      simpa using this
    · rw [if_neg hg]
      simp only [false_iff, not_le]
      have := (gather_quorum_iff need responses 0 []).not.mp hg
      push_neg at this
      simpa using this
  · intro hnone
    unfold write at hnone
    rw [if_neg hlen] at hnone
    rcases Classical.em ((gather need responses 0 []).1 -
        ((gather need responses 0 []).2).length ≥ need) with hg | hg
    · obtain ⟨c, hc, h1, h2, h3⟩ := gather_run need responses 0 [] hbase
      refine ⟨c, hc, ?_, ?_⟩
      · rw [h1, h2] at hg
        simp only [List.nil_append, zero_add] at hg
        have hsum := successCount_add_errors_length (responses.take c)
        have htk : (responses.take c).length = c := by
          rw [List.length_take]
          omega
        rw [htk] at hsum
        omega
      · intro j hj
        have := h3 j hj
        simpa using this
    · rw [if_neg hg] at hnone
      cases hnone
  · intro msg hmsg e hmem
    unfold write at hmsg
    rw [if_neg hlen] at hmsg
    rcases Classical.em ((gather need responses 0 []).1 -
        ((gather need responses 0 []).2).length ≥ need) with hg | hg
    · rw [if_pos hg] at hmsg
      cases hmsg
    · rw [if_neg hg] at hmsg
      dsimp only at hmsg
      have herrs := gather_no_quorum_errors need responses 0 [] hg
      simp only [List.nil_append] at herrs
      have he : e ∈ (gather need responses 0 []).2 := herrs ▸ hmem
      have hmid : e <:+: goJoin (String.toList "; ") (gather need responses 0 []).2 :=
        mem_goJoin_sub _ e _ he
      have hmsg2 : noQuorumMsg (gather need responses 0 []).2 = msg := Option.some.inj hmsg
      rw [← hmsg2]
      unfold noQuorumMsg
      obtain ⟨s, u, hsu⟩ := hmid
      exact ⟨String.toList "no quorum (" ++ s, u ++ String.toList ")", by
        rw [← hsu]; simp⟩

/-- Witness for write_quorum_spec: one concrete batch, two successes and
one failure against quorum 2; all three conjuncts are discharged at that
input. -/
theorem write_quorum_spec_witness :
    ([KeyScoreMember.mk "k" (1 : Int) "m"] ≠ ([] : List (KeyScoreMember Int))) ∧
    ((1 : Int) ≤ 2) ∧
    (((write 3 [KeyScoreMember.mk "k" (1 : Int) "m"] 2
        [none, some (String.toList "boom"), none]).err = none ↔
      (2 : Int) ≤ (successCount [none, some (String.toList "boom"), none] : Int)) ∧
    ((write 3 [KeyScoreMember.mk "k" (1 : Int) "m"] 2
        [none, some (String.toList "boom"), none]).err = none →
      ∃ c ≤ ([none, some (String.toList "boom"), none] :
          List (Option (List Char))).length,
        (2 : Int) ≤ (successCount (([none, some (String.toList "boom"), none] :
          List (Option (List Char))).take c) : Int) ∧
        ∀ j : Nat, j < c → (successCount (([none, some (String.toList "boom"), none] :
          List (Option (List Char))).take j) : Int) < 2) ∧
    (∀ msg, (write 3 [KeyScoreMember.mk "k" (1 : Int) "m"] 2
        [none, some (String.toList "boom"), none]).err = some msg →
      ∀ e ∈ ([none, some (String.toList "boom"), none] :
          List (Option (List Char))).filterMap id, e <:+: msg)) := by
  refine ⟨by decide, by decide, ?_⟩
  have h := write_quorum_spec (α := Int) [KeyScoreMember.mk "k" (1 : Int) "m"] 2
    [none, some (String.toList "boom"), none] (by decide) (by decide)
  simpa using h

omit [LinearOrder α] in
/-- C8: an empty tuple batch short-circuits (farm.go lines 203-206):
Insert and Delete return success immediately, scatter no cluster
operation, and record no instrumentation. -/
theorem write_empty_batch (clusters : Nat) (need : Int)
    (responses : List (Option (List Char))) :
    FarmInsert clusters ([] : List (KeyScoreMember α)) need responses =
      { err := none, clusterCalls := 0, instr := [] } ∧
    FarmDelete clusters ([] : List (KeyScoreMember α)) need responses =
      { err := none, clusterCalls := 0, instr := [] } :=
  ⟨rfl, rfl⟩

/-! ## Constructor and walker guard (farm.go lines 60-90 and 128-131) -/

/-- The observable configuration of a constructed Farm (farm.go lines
27-35), as far as the claims reach: the cluster count, the stored write
quorum, and whether startWalker proceeds past its guard. -/
structure Farm where
  clusters : Nat
  writeQuorum : Int
  walkerStarted : Bool
deriving DecidableEq, Repr

/-- The guard of startWalker (farm.go lines 129-131): it returns before
starting the key-producer goroutine and the driver loop iff
walkerRate == 0. Any other rate, negative ones included, starts both. -/
def startWalkerSkipped (walkerRate : Int) : Bool :=
  walkerRate == 0

/-- New (farm.go lines 60-90): substitutes no-op collaborators for nil
ones, stores the configuration unchecked, spawns startWalker, and returns
the Farm. A `none` result would model a construction-time rejection; the
source has no such path, so New always returns `some`. -/
def New (clusters : Nat) (writeQuorum walkerRate : Int) : Option Farm :=
  some { clusters := clusters, writeQuorum := writeQuorum,
         walkerStarted := !(startWalkerSkipped walkerRate) }

/-- C4 counterexample: with one cluster and writeQuorum = 2 > N = 1,
construction succeeds and stores the out-of-range quorum; no
configuration error is raised at construction time. -/
theorem New_accepts_invalid_quorum :
    New 1 2 0 = some { clusters := 1, writeQuorum := 2, walkerStarted := false } := by
  decide

omit [LinearOrder α] in
/-- C4 (amended): New performs no configuration validation, so
construction always succeeds whatever the writeQuorum; a writeQuorum
greater than the number of clusters is not caught at construction but
surfaces on use: every non-empty write then fails with a quorum error. -/
theorem New_defers_quorum_error (clusters : Nat) (writeQuorum walkerRate : Int)
    (tuples : List (KeyScoreMember α)) (responses : List (Option (List Char)))
    (hne : tuples ≠ []) (hn : responses.length = clusters)
    (hgt : (clusters : Int) < writeQuorum) :
    (∃ farm, New clusters writeQuorum walkerRate = some farm) ∧
    (write clusters tuples writeQuorum responses).err ≠ none := by
  refine ⟨⟨_, rfl⟩, ?_⟩
  have hlen : ¬ tuples.length ≤ 0 := by
    simpa [List.length_eq_zero] using hne
  have hsc : (successCount responses : Int) < writeQuorum := by
    have h1 : successCount responses ≤ responses.length := List.countP_le_length _
    omega
  have hg : ¬ ((gather writeQuorum responses 0 []).1 -
      ((gather writeQuorum responses 0 []).2).length ≥ writeQuorum) := by
    rw [gather_quorum_iff]
    simp only [List.length_nil]
    push_cast
    omega
  unfold write
  rw [if_neg hlen, if_neg hg]
  simp

/-- Witness for New_defers_quorum_error: one cluster, quorum 2, one
successful response — construction succeeds, the write still fails. -/
theorem New_defers_quorum_error_witness :
    (([KeyScoreMember.mk "k" (1 : Int) "m"] : List (KeyScoreMember Int)) ≠ []) ∧
    ([(none : Option (List Char))].length = 1) ∧
    ((1 : Int) < 2) ∧
    ((∃ farm, New 1 2 0 = some farm) ∧
      (write 1 [KeyScoreMember.mk "k" (1 : Int) "m"] 2
        [(none : Option (List Char))]).err ≠ none) := by
  refine ⟨by decide, by decide, by decide, ?_⟩
  exact New_defers_quorum_error (α := Int) 1 2 0 [KeyScoreMember.mk "k" (1 : Int) "m"]
    [none] (by decide) (by decide) (by decide)

/-- C6 counterexample: at walkerRate = -1 the guard does not fire — the
key-producer goroutine and the driver loop are started although -1 ≤ 0. -/
theorem walker_started_at_negative_rate :
    startWalkerSkipped (-1) = false ∧ ¬ ((-1 : Int) ≤ 0 → startWalkerSkipped (-1) = true) := by
  decide

/-- C6 (amended): the walker is started at construction iff
walkerRate ≠ 0; only walkerRate = 0 — not every walkerRate ≤ 0 —
disables it entirely. -/
theorem walker_disabled_iff (walkerRate : Int) :
    startWalkerSkipped walkerRate = true ↔ walkerRate = 0 := by
  simp [startWalkerSkipped]

/-! ## Select entry point (farm.go lines 109-116) -/

/-- Observable outcome of one Farm.Select call: the returned map (`none`
models a nil Go map, `some` a non-nil one), the returned error, the
arguments handed to ratePolice.Report in order, and whether the read
strategy ran. -/
structure SelectOutcome where
  result : Option (List (String × List (KeyScoreMember Int)))
  err : Option (List Char)
  reports : List Nat
  strategyCalled : Bool
deriving DecidableEq, Repr

/-- A read strategy (coreReadStrategy, bound at farm.go line 86): the farm
calls it with keys, offset and limit and passes its map and error
through. -/
def ReadStrategyFn : Type :=
  List String → Int → Int →
    Option (List (String × List (KeyScoreMember Int))) × Option (List Char)

/-- Farm.Select (farm.go lines 109-116): an empty key list short-circuits
to a freshly allocated empty (non-nil) map and a nil error (lines
110-113) before ratePolice.Report runs and without reaching the read
strategy; otherwise Report(len(keys)) is called once and the read
strategy result is returned. -/
def FarmSelect (readStrategy : ReadStrategyFn) (keys : List String)
    (offset limit : Int) : SelectOutcome :=
  if keys.length ≤ 0 then
    { result := some [], err := none, reports := [], strategyCalled := false }
  else
    { result := (readStrategy keys offset limit).1,
      err := (readStrategy keys offset limit).2,
      reports := [keys.length], strategyCalled := true }

/-- C9: Select with an empty key list returns an empty non-nil map and a
nil error, invokes no read strategy, and reports nothing to the rate
police, whatever the offset, the limit and the installed strategy. -/
theorem select_empty_keys (readStrategy : ReadStrategyFn) (offset limit : Int) :
    FarmSelect readStrategy [] offset limit =
      { result := some [], err := none, reports := [], strategyCalled := false } :=
  rfl

/-- C7 counterexample: a Select call with an empty key list does not
invoke ratePolice.Report at all — its report list is empty rather than
[len(keys)] = [0]. -/
theorem select_empty_keys_no_report :
    (FarmSelect (fun _ _ _ => (some [], none)) [] 0 0).reports ≠
      [List.length ([] : List String)] := by
  decide

/-- C7 (amended): on every Select call with a non-empty key list,
ratePolice.Report is invoked exactly once with len(keys); only the
empty-key short-circuit skips the report. -/
theorem select_reports_length (readStrategy : ReadStrategyFn) (keys : List String)
    (offset limit : Int) (hne : keys ≠ []) :
    (FarmSelect readStrategy keys offset limit).reports = [keys.length] := by
  unfold FarmSelect
  rw [if_neg (by simpa [List.length_eq_zero] using hne)]

/-- Witness for select_reports_length at a two-key call. -/
theorem select_reports_length_witness :
    (["a", "b"] ≠ ([] : List String)) ∧
    (FarmSelect (fun _ _ _ => (some [], none)) ["a", "b"] 0 10).reports =
      [List.length ["a", "b"]] :=
  ⟨by decide, select_reports_length (fun _ _ _ => (some [], none)) ["a", "b"] 0 10
    (by decide)⟩

/-! ## Walker driver (farm.go lines 162-195) -/

/-- MaxInt (farm.go lines 16-20) on a 64-bit platform. -/
def MaxInt : Int := 2 ^ 63 - 1

/-- The batch-size computation of one driver iteration (farm.go lines
163-173): `none` when the rate police grants no budget (the driver then
records a throttling event and sleeps a second); otherwise the grant,
capped defensively at 10 * walkerRate (lines 170-173). -/
def walkerBatchSize (walkerRate grant : Int) : Option Int :=
  if grant ≤ 0 then none
  else if grant > 10 * walkerRate then some (10 * walkerRate) else some grant

/-- The number of keys one driver iteration pulls from the key channel
(farm.go lines 174-177): the loop `for ; batchSize > 0; batchSize--`
pulls one key per positive count, none for a non-positive batch size. -/
def walkerKeysPulled (walkerRate grant : Int) : Nat :=
  match walkerBatchSize walkerRate grant with
  | none => 0
  | some b => b.toNat

/-- C5: whatever ratePolice.Request grants, each driver iteration pulls at
most 10 * walkerRate keys from the key channel before handing them to
Select. -/
theorem walker_batch_capped (walkerRate grant : Int) (hpos : 0 < walkerRate) :
    (walkerKeysPulled walkerRate grant : Int) ≤ 10 * walkerRate := by
  unfold walkerKeysPulled walkerBatchSize
  by_cases h0 : grant ≤ 0
  · rw [if_pos h0]
    dsimp only
    omega
  · rw [if_neg h0]
    by_cases hcap : grant > 10 * walkerRate
    · rw [if_pos hcap]
      dsimp only
      omega
    · rw [if_neg hcap]
      dsimp only
      omega

/-- Witness for walker_batch_capped: rate 3, grant 1000 → at most 30 keys. -/
theorem walker_batch_capped_witness :
    ((0 : Int) < 3) ∧ (walkerKeysPulled 3 1000 : Int) ≤ 10 * 3 :=
  ⟨by decide, walker_batch_capped 3 1000 (by decide)⟩

/-- One walker driver iteration as the query path observes it (farm.go
lines 162-195): `none` when the rate police grants nothing (no Select at
all, only a throttling event); otherwise the outcome of routing the
pulled keys through the public Farm.Select with offset 0 and limit MaxInt
(line 181). `keyStream` is the sequence the unbuffered key channel
yields. -/
def walkerDriverStep (readStrategy : ReadStrategyFn) (walkerRate grant : Int)
    (keyStream : List String) : Option SelectOutcome :=
  if grant ≤ 0 then none
  else some (FarmSelect readStrategy
    (keyStream.take (walkerKeysPulled walkerRate grant)) 0 MaxInt)

/-- C10: every walker batch is routed through the public Select path, so a
batch of b keys also triggers ratePolice.Report(b): with a positive rate,
a positive grant and enough keys in the stream, the driver performs a
Select that runs the read strategy and reports exactly the batch size,
which is at least 1. -/
theorem walker_batch_reported (readStrategy : ReadStrategyFn) (walkerRate grant : Int)
    (keyStream : List String) (hr : 0 < walkerRate) (hg : 0 < grant)
    (hlen : walkerKeysPulled walkerRate grant ≤ keyStream.length) :
    ∃ out, walkerDriverStep readStrategy walkerRate grant keyStream = some out ∧
      out.strategyCalled = true ∧
      out.reports = [walkerKeysPulled walkerRate grant] ∧
      1 ≤ walkerKeysPulled walkerRate grant := by
  have hb : 1 ≤ walkerKeysPulled walkerRate grant := by
    unfold walkerKeysPulled walkerBatchSize
    rw [if_neg (by omega : ¬ grant ≤ 0)]
    by_cases hcap : grant > 10 * walkerRate
    · rw [if_pos hcap]
      dsimp only
      omega
    · rw [if_neg hcap]
      dsimp only
      omega
  have htk : (keyStream.take (walkerKeysPulled walkerRate grant)).length =
      walkerKeysPulled walkerRate grant := by
    rw [List.length_take]
    omega
  have hne2 : ¬ ((keyStream.take (walkerKeysPulled walkerRate grant)).length ≤ 0) := by
    rw [htk]
    omega
  refine ⟨FarmSelect readStrategy (keyStream.take (walkerKeysPulled walkerRate grant))
    0 MaxInt, ?_, ?_, ?_, hb⟩
  · unfold walkerDriverStep
    rw [if_neg (by omega : ¬ grant ≤ 0)]
  · unfold FarmSelect
    rw [if_neg hne2]
  · unfold FarmSelect
    rw [if_neg hne2, htk]

/-- Witness for walker_batch_reported: rate 1, grant 5, five keys in the
stream → the Select reports [5]. -/
theorem walker_batch_reported_witness :
    ((0 : Int) < 1) ∧ ((0 : Int) < 5) ∧
    (walkerKeysPulled 1 5 ≤ (["a", "b", "c", "d", "e"] : List String).length) ∧
    (∃ out, walkerDriverStep (fun _ _ _ => (some [], none)) 1 5
        ["a", "b", "c", "d", "e"] = some out ∧
      out.strategyCalled = true ∧
      out.reports = [walkerKeysPulled 1 5] ∧
      1 ≤ walkerKeysPulled 1 5) := by
  refine ⟨by decide, by decide, by decide, ?_⟩
  exact walker_batch_reported (fun _ _ _ => (some [], none)) 1 5
    ["a", "b", "c", "d", "e"] (by decide) (by decide) (by decide)

end Roshi
